import Mathlib

/-!
Verification development for the APK analysis core (server/apk-analyzer.ts,
server/apk-signer.ts, and the upload/analysis route handler).

The TypeScript source is shallowly embedded: strings are lists of characters,
JS `String.prototype.includes` / `replace` (string pattern: first occurrence;
regex with the `g` flag: all occurrences) are modelled by executable functions
on `List Char`, the filesystem is a map from path strings to file values, and
control flow with exceptions is modelled by `Except` or by explicit outcome
parameters for the external tool invocations.
-/

set_option maxRecDepth 16384

namespace ApkCheck

/-! ## String primitives (JS semantics over `List Char`) -/

/-- Split `s` at the first occurrence of `pat`: returns the part strictly
before the occurrence and the part strictly after it.  `none` when `pat` does
not occur.  This is the search underlying JS `includes` and single `replace`. -/
def splitFirst (pat : List Char) : List Char → Option (List Char × List Char)
  | [] => if pat.isEmpty then some ([], []) else none
  | c :: rest =>
    if pat.isPrefixOf (c :: rest) then some ([], (c :: rest).drop pat.length)
    else
      match splitFirst pat rest with
      | some (pre, post) => some (c :: pre, post)
      | none => none

/-- JS `String.prototype.includes`. -/
def containsL (pat s : List Char) : Bool := (splitFirst pat s).isSome

theorem splitFirst_eq_some {pat s a b : List Char}
    (h : splitFirst pat s = some (a, b)) : s = a ++ pat ++ b := by
  induction s generalizing a b with
  | nil =>
    unfold splitFirst at h
    by_cases hp : pat.isEmpty
    · simp only [hp, if_true, Option.some.injEq, Prod.mk.injEq] at h
      simp [List.isEmpty_iff.mp hp, h.1.symm, h.2.symm]
    · simp [hp] at h
  | cons c rest ih =>
    unfold splitFirst at h
    by_cases hp : pat.isPrefixOf (c :: rest)
    · simp only [hp, if_true, Option.some.injEq, Prod.mk.injEq] at h
      have hpre : pat <+: c :: rest := List.isPrefixOf_iff_prefix.mp hp
      obtain ⟨t, ht⟩ := hpre
      rw [← h.1, ← h.2, ← ht]
      simp [List.drop_left]
    · rw [if_neg hp] at h
      cases hsp : splitFirst pat rest with
      | none => simp [hsp] at h
      | some pr =>
        obtain ⟨pre, post⟩ := pr
        simp only [hsp, Option.some.injEq, Prod.mk.injEq] at h
        have := ih (a := pre) (b := post) (by simp [hsp])
        rw [← h.1, ← h.2]
        simp [this]

theorem splitFirst_length_lt {pat s a b : List Char}
    (h : splitFirst pat s = some (a, b)) (hpat : pat ≠ []) :
    b.length < s.length := by
  have := splitFirst_eq_some h
  subst this
  have : 0 < pat.length := List.length_pos.mpr hpat
  simp [List.length_append]
  omega

theorem splitFirst_none {pat s : List Char}
    (h : splitFirst pat s = none) : ¬ pat <:+: s := by
  induction s with
  | nil =>
    unfold splitFirst at h
    by_cases hp : pat.isEmpty
    · simp [hp] at h
    · intro hinf
      have := List.eq_nil_of_infix_nil hinf
      simp [this] at hp
  | cons c rest ih =>
    unfold splitFirst at h
    by_cases hp : pat.isPrefixOf (c :: rest)
    · simp [hp] at h
    · rw [if_neg hp] at h
      cases hsp : splitFirst pat rest with
      | some pr => simp [hsp] at h
      | none =>
        intro hinf
        rcases List.infix_cons_iff.mp hinf with hpre | hinf2
        · exact hp (List.isPrefixOf_iff_prefix.mpr hpre)
        · exact ih hsp hinf2

theorem splitFirst_isSome_of_occurs {pat s : List Char}
    (h : pat <:+: s) : (splitFirst pat s).isSome := by
  cases hsp : splitFirst pat s with
  | none => exact absurd h (splitFirst_none hsp)
  | some pr => simp

/-- `containsL` agrees with list-infix. -/
theorem containsL_iff {pat s : List Char} : containsL pat s = true ↔ pat <:+: s := by
  constructor
  · intro h
    unfold containsL at h
    cases hsp : splitFirst pat s with
    | none => simp [hsp] at h
    | some pr =>
      obtain ⟨a, b⟩ := pr
      have := splitFirst_eq_some hsp
      exact ⟨a, b, this.symm⟩
  · intro h
    unfold containsL
    simpa using splitFirst_isSome_of_occurs h

theorem containsL_eq_false_iff {pat s : List Char} :
    containsL pat s = false ↔ ¬ pat <:+: s := by
  rw [← containsL_iff]
  cases containsL pat s <;> simp

/-- Minimality of the occurrence found by `splitFirst`. -/
theorem splitFirst_min {pat s a b u v : List Char}
    (h : splitFirst pat s = some (a, b)) (hs : s = u ++ pat ++ v) :
    a.length ≤ u.length := by
  induction s generalizing a b u v with
  | nil =>
    unfold splitFirst at h
    by_cases hp : pat.isEmpty
    · simp only [hp, if_true, Option.some.injEq, Prod.mk.injEq] at h
      simp [← h.1]
    · simp [hp] at h
  | cons c rest ih =>
    unfold splitFirst at h
    by_cases hp : pat.isPrefixOf (c :: rest)
    · simp only [hp, if_true, Option.some.injEq, Prod.mk.injEq] at h
      simp [← h.1]
    · rw [if_neg hp] at h
      cases hsp : splitFirst pat rest with
      | none => simp [hsp] at h
      | some pr =>
        obtain ⟨pre, post⟩ := pr
        simp only [hsp, Option.some.injEq, Prod.mk.injEq] at h
        cases u with
        | nil =>
          exfalso
          apply hp
          apply List.isPrefixOf_iff_prefix.mpr
          exact ⟨v, by simpa using hs.symm⟩
        | cons d u2 =>
          have hcd : c = d := by simpa using congrArg (·.head?) hs
          have hrest : rest = u2 ++ pat ++ v := by
            have := congrArg List.tail hs
            simpa using this
          have := ih (a := pre) (b := post) (by simp [hsp]) hrest
          simp [← h.1]
          omega

/-- The prefix returned by `splitFirst` contains no occurrence of `pat`. -/
theorem splitFirst_not_infix_pre {pat s a b : List Char}
    (h : splitFirst pat s = some (a, b)) (hpat : pat ≠ []) :
    ¬ pat <:+: a := by
  intro hinf
  obtain ⟨g, k, hgk⟩ := hinf
  have hs : s = a ++ pat ++ b := splitFirst_eq_some h
  have hs2 : s = g ++ pat ++ (k ++ pat ++ b) := by
    rw [hs, ← hgk]; simp
  have hmin := splitFirst_min h hs2
  have : a.length = g.length + pat.length + k.length := by
    have := congrArg List.length hgk
    simp [List.length_append] at this
    omega
  have : 0 < pat.length := List.length_pos.mpr hpat
  omega

/-! ## Occurrence decomposition -/

theorem prefix_append_cases {p x y : List Char} (h : p <+: x ++ y) :
    p <+: x ∨ ∃ r, p = x ++ r ∧ r <+: y := by
  obtain ⟨t, ht⟩ := h
  rcases List.append_eq_append_iff.mp ht with ⟨a2, ha1, _⟩ | ⟨c2, hc1, hc2⟩
  · exact Or.inl ⟨a2, ha1.symm⟩
  · exact Or.inr ⟨c2, hc1, ⟨t, hc2.symm⟩⟩

/-- Positional decomposition: an occurrence of `p` inside `X ++ Y` lies inside
`X`, lies inside `Y`, or straddles the boundary. -/
theorem occ_append_cases {p X Y u v : List Char} (h : X ++ Y = u ++ p ++ v) :
    (∃ x2, X = u ++ p ++ x2 ∧ v = x2 ++ Y) ∨
    (∃ u2, u = X ++ u2 ∧ Y = u2 ++ p ++ v) ∨
    (∃ n, 0 < n ∧ n < p.length ∧ X = u ++ p.take n ∧ Y = p.drop n ++ v) := by
  have hu : u <+: X ++ Y := ⟨p ++ v, by simp [h]⟩
  have hx : X <+: X ++ Y := ⟨Y, rfl⟩
  rcases List.prefix_or_prefix_of_prefix hu hx with hux | hxu
  · obtain ⟨w, hw⟩ := hux
    have hwY : w ++ Y = p ++ v := by
      have : u ++ (w ++ Y) = u ++ (p ++ v) := by
        rw [← List.append_assoc, hw]
        simpa [List.append_assoc] using h
      exact (List.append_cancel_left this)
    rcases prefix_append_cases (⟨v, hwY.symm⟩ : p <+: w ++ Y) with hpw | ⟨r, hr1, hr2⟩
    · obtain ⟨x2, hx2⟩ := hpw
      left
      refine ⟨x2, by rw [← hw, ← hx2, List.append_assoc], ?_⟩
      have : p ++ (x2 ++ Y) = p ++ v := by
        rw [← List.append_assoc, hx2, hwY]
      exact (List.append_cancel_left this).symm
    · by_cases hrnil : r = []
      · subst hrnil
        left
        refine ⟨[], by simp [← hw, hr1], ?_⟩
        have hpw2 : w = p := by simpa using hr1.symm
        rw [hpw2] at hwY
        simpa using (List.append_cancel_left hwY).symm
      · by_cases hwnil : w = []
        · subst hwnil
          right; left
          refine ⟨[], by simp [← hw], ?_⟩
          simpa using hwY
        · right; right
          have hlenw : p.take w.length = w := by
            rw [hr1]; simp
          have hlendrop : p.drop w.length = r := by
            rw [hr1]; simp
          refine ⟨w.length, List.length_pos.mpr hwnil, ?_, by rw [hlenw, ← hw], ?_⟩
          · have := congrArg List.length hr1
            simp [List.length_append] at this
            have : 0 < r.length := List.length_pos.mpr hrnil
            omega
          · rw [hlendrop]
            have : w ++ Y = w ++ (r ++ v) := by
              rw [hwY, hr1]; simp
            exact List.append_cancel_left this
  · obtain ⟨u2, hu2⟩ := hxu
    right; left
    refine ⟨u2, hu2.symm, ?_⟩
    have : X ++ Y = X ++ (u2 ++ p ++ v) := by
      simpa [← hu2, List.append_assoc] using h
    exact List.append_cancel_left this

/-- Infix-level decomposition over an append. -/
theorem infix_append_cases {p X Y : List Char} (h : p <:+: X ++ Y) :
    p <:+: X ∨ p <:+: Y ∨
      ∃ n, 0 < n ∧ n < p.length ∧ p.take n <:+ X ∧ p.drop n <+: Y := by
  obtain ⟨u, v, huv⟩ := h
  rcases occ_append_cases huv.symm with ⟨x2, hx1, _⟩ | ⟨u2, _, hu2⟩ | ⟨n, hn0, hnl, hX, hY⟩
  · exact Or.inl ⟨u, x2, hx1.symm⟩
  · exact Or.inr (Or.inl ⟨u2, v, hu2.symm⟩)
  · exact Or.inr (Or.inr ⟨n, hn0, hnl, ⟨u, hX.symm⟩, ⟨v, hY.symm⟩⟩)

/-- If the right part of an append starts with a character not occurring in
`p`, an occurrence of `p` cannot straddle the boundary. -/
theorem infix_append_fresh {p x z : List Char} {c : Char}
    (h : p <:+: x ++ z) (hz : z.head? = some c) (hc : c ∉ p) :
    p <:+: x ∨ p <:+: z := by
  rcases infix_append_cases h with hx | hz2 | ⟨n, hn0, hnl, _, hdr⟩
  · exact Or.inl hx
  · exact Or.inr hz2
  · exfalso
    have hne : p.drop n ≠ [] := by
      intro hnil
      have := congrArg List.length hnil
      simp at this
      omega
    obtain ⟨t, ht⟩ := hdr
    cases hd : p.drop n with
    | nil => exact hne hd
    | cons d l =>
      rw [hd] at ht
      have hdz : z.head? = some d := by rw [← ht]; simp
      have : d = c := by rw [hdz] at hz; simpa using hz
      subst this
      apply hc
      have : d ∈ p.drop n := by simp [hd]
      exact List.drop_subset n p this

/-! ## Overlap side-conditions (decidable for concrete strings) -/

/-- No nonempty proper suffix of `p` is a prefix of `q`. -/
def noSufPre (p q : List Char) : Prop := ∀ n, n < p.length → 0 < n → ¬ (p.drop n <+: q)

/-- No nonempty proper prefix of `p` is a suffix of `q`. -/
def noPreSuf (p q : List Char) : Prop := ∀ n, n < p.length → 0 < n → ¬ (p.take n <:+ q)

instance (p q : List Char) : Decidable (noSufPre p q) := by
  unfold noSufPre; infer_instance

instance (p q : List Char) : Decidable (noPreSuf p q) := by
  unfold noPreSuf; infer_instance

/-! ## JS `replace` -/

/-- JS `String.prototype.replace` with a plain-string pattern: replaces only
the first occurrence (used for the `</manifest>` permission insertions). -/
def replaceFirst (pat rep s : List Char) : List Char :=
  match splitFirst pat s with
  | none => s
  | some (a, b) => a ++ rep ++ b

/-- JS `String.prototype.replace` with a `g`-flagged regex whose pattern is a
literal string: replaces every occurrence, scanning left to right and
continuing after each replacement. -/
def replaceAll (pat rep : List Char) (s : List Char) : List Char :=
  if hpat : pat = [] then s
  else
    match hsp : splitFirst pat s with
    | none => s
    | some (a, b) => a ++ rep ++ replaceAll pat rep b
termination_by s.length
decreasing_by exact splitFirst_length_lt hsp hpat

theorem replaceAll_of_none {pat rep s : List Char} (hpat : pat ≠ [])
    (hsp : splitFirst pat s = none) : replaceAll pat rep s = s := by
  unfold replaceAll
  rw [dif_neg hpat]
  split <;> simp_all

theorem replaceAll_of_some {pat rep s a b : List Char} (hpat : pat ≠ [])
    (hsp : splitFirst pat s = some (a, b)) :
    replaceAll pat rep s = a ++ rep ++ replaceAll pat rep b := by
  conv_lhs => rw [replaceAll.eq_def]
  rw [dif_neg hpat]
  split <;> simp_all [List.append_assoc]

theorem splitFirst_eq_none_of_no_occurrence {pat s : List Char} (h : ¬ pat <:+: s) :
    splitFirst pat s = none := by
  cases hsp : splitFirst pat s with
  | none => rfl
  | some pr =>
    obtain ⟨a, b⟩ := pr
    exact absurd ⟨a, b, (splitFirst_eq_some hsp).symm⟩ h

theorem replaceAll_id_of_no_occurrence {pat rep s : List Char} (hpat : pat ≠ [])
    (h : ¬ pat <:+: s) : replaceAll pat rep s = s :=
  replaceAll_of_none hpat (splitFirst_eq_none_of_no_occurrence h)

theorem replaceFirst_id_of_no_occurrence {pat rep s : List Char}
    (h : ¬ pat <:+: s) : replaceFirst pat rep s = s := by
  unfold replaceFirst
  rw [splitFirst_eq_none_of_no_occurrence h]

/-- After a global replace with non-self-overlapping `pat`/`rep`, no
occurrence of `pat` remains. -/
theorem replaceAll_removes_all {pat rep : List Char} (hpat : pat ≠ [])
    (h1 : ¬ pat <:+: rep) (h2 : ¬ rep <:+: pat)
    (h3 : noSufPre pat rep) (h4 : noPreSuf pat rep) :
    ∀ s, ¬ pat <:+: replaceAll pat rep s := by
  suffices H : ∀ N s, s.length ≤ N → ¬ pat <:+: replaceAll pat rep s by
    exact fun s => H s.length s le_rfl
  intro N
  induction N with
  | zero =>
    intro s hs
    have : s = [] := by
      cases s with
      | nil => rfl
      | cons c t => simp at hs
    subst this
    rw [replaceAll_of_none hpat (by
      unfold splitFirst
      simp [List.isEmpty_iff, hpat])]
    intro hcon
    exact hpat (List.eq_nil_of_infix_nil hcon)
  | succ N ih =>
    intro s hs
    cases hsp : splitFirst pat s with
    | none =>
      rw [replaceAll_of_none hpat hsp]
      exact splitFirst_none hsp
    | some pr =>
      obtain ⟨a, b⟩ := pr
      rw [replaceAll_of_some hpat hsp]
      intro hcon
      have hblen : b.length ≤ N := by
        have h1 := splitFirst_length_lt hsp hpat
        omega
      have hR := ih b hblen
      rw [List.append_assoc] at hcon
      rcases infix_append_cases hcon with hA | hcon2 | ⟨n, hn0, hnl, _, hdr⟩
      · exact splitFirst_not_infix_pre hsp hpat hA
      · rcases infix_append_cases hcon2 with hB | hC | ⟨n, hn0, hnl, htk, _⟩
        · exact h1 hB
        · exact hR hC
        · exact h4 n hnl hn0 htk
      · rcases prefix_append_cases hdr with hp1 | ⟨r, hr1, _⟩
        · exact h3 n hnl hn0 hp1
        · apply h2
          refine ⟨pat.take n, r, ?_⟩
          have hsplit : pat.take n ++ pat.drop n = pat := List.take_append_drop n pat
          rw [hr1] at hsplit
          simpa using hsplit

/-- A global replace of `pat2` cannot create an occurrence of `p` when `p`
cannot overlap the replacement text. -/
theorem replaceAll_noCreate {p pat rep : List Char} (hpat : pat ≠ [])
    (h1 : ¬ p <:+: rep) (h2 : ¬ rep <:+: p)
    (h3 : noSufPre p rep) (h4 : noPreSuf p rep) :
    ∀ s, ¬ p <:+: s → ¬ p <:+: replaceAll pat rep s := by
  suffices H : ∀ N s, s.length ≤ N → ¬ p <:+: s → ¬ p <:+: replaceAll pat rep s by
    exact fun s => H s.length s le_rfl
  intro N
  induction N with
  | zero =>
    intro s hlen hns
    have : s = [] := by
      cases s with
      | nil => rfl
      | cons c t => simp at hlen
    subst this
    rw [replaceAll_of_none hpat (by
      unfold splitFirst
      simp [List.isEmpty_iff, hpat])]
    exact hns
  | succ N ih =>
    intro s hlen hns
    cases hsp : splitFirst pat s with
    | none =>
      rw [replaceAll_of_none hpat hsp]
      exact hns
    | some pr =>
      obtain ⟨a, b⟩ := pr
      rw [replaceAll_of_some hpat hsp]
      intro hcon
      have hseq : s = a ++ pat ++ b := splitFirst_eq_some hsp
      have hblen : b.length ≤ N := by
        have := splitFirst_length_lt hsp hpat
        omega
      have hnb : ¬ p <:+: b := fun hb =>
        hns (hb.trans ⟨a ++ pat, [], by simp [hseq]⟩)
      have hR := ih b hblen hnb
      rw [List.append_assoc] at hcon
      rcases infix_append_cases hcon with hA | hcon2 | ⟨n, hn0, hnl, _, hdr⟩
      · exact hns (hA.trans ⟨[], pat ++ b, by simp [hseq]⟩)
      · rcases infix_append_cases hcon2 with hB | hC | ⟨n, hn0, hnl, htk, _⟩
        · exact h1 hB
        · exact hR hC
        · exact h4 n hnl hn0 htk
      · rcases prefix_append_cases hdr with hp1 | ⟨r, hr1, _⟩
        · exact h3 n hnl hn0 hp1
        · apply h2
          refine ⟨p.take n, r, ?_⟩
          have hsplit : p.take n ++ p.drop n = p := List.take_append_drop n p
          rw [hr1] at hsplit
          simpa using hsplit

/-- A global replace of `pat` preserves occurrences of a pattern `p` that
cannot overlap `pat`. -/
theorem replaceAll_preserve {p pat rep : List Char} (hpat : pat ≠ [])
    (h1 : ¬ p <:+: pat) (h2 : ¬ pat <:+: p)
    (h3 : noSufPre p pat) (h4 : noPreSuf p pat) :
    ∀ s, p <:+: s → p <:+: replaceAll pat rep s := by
  suffices H : ∀ N s, s.length ≤ N → p <:+: s → p <:+: replaceAll pat rep s by
    exact fun s => H s.length s le_rfl
  intro N
  induction N with
  | zero =>
    intro s hlen hp
    have : s = [] := by
      cases s with
      | nil => rfl
      | cons c t => simp at hlen
    subst this
    rw [replaceAll_of_none hpat (by
      unfold splitFirst
      simp [List.isEmpty_iff, hpat])]
    exact hp
  | succ N ih =>
    intro s hlen hp
    cases hsp : splitFirst pat s with
    | none =>
      rw [replaceAll_of_none hpat hsp]
      exact hp
    | some pr =>
      obtain ⟨a, b⟩ := pr
      rw [replaceAll_of_some hpat hsp]
      have hseq : s = a ++ pat ++ b := splitFirst_eq_some hsp
      have hblen : b.length ≤ N := by
        have := splitFirst_length_lt hsp hpat
        omega
      rw [hseq, List.append_assoc] at hp
      rcases infix_append_cases hp with hA | hcon2 | ⟨n, hn0, hnl, _, hdr⟩
      · exact hA.trans ⟨[], rep ++ replaceAll pat rep b, by simp⟩
      · rcases infix_append_cases hcon2 with hB | hC | ⟨n, hn0, hnl, htk, _⟩
        · exact absurd hB h1
        · have := ih b hblen hC
          exact this.trans ⟨a ++ rep, [], by simp⟩
        · exact absurd htk (h4 n hnl hn0)
      · rcases prefix_append_cases hdr with hp1 | ⟨r, hr1, _⟩
        · exact absurd hp1 (h3 n hnl hn0)
        · exfalso
          apply h2
          refine ⟨p.take n, r, ?_⟩
          have hsplit : p.take n ++ p.drop n = p := List.take_append_drop n p
          rw [hr1] at hsplit
          simpa using hsplit

/-- A replacement whose text contains `mk` keeps `mk` present; and if no
replacement happens the string is unchanged, so `mk` also stays. -/
theorem replaceAll_marker {pat rep mk s : List Char} (hpat : pat ≠ [])
    (hmk : mk <:+: rep) (hs : mk <:+: s) : mk <:+: replaceAll pat rep s := by
  cases hsp : splitFirst pat s with
  | none =>
    rw [replaceAll_of_none hpat hsp]
    exact hs
  | some pr =>
    obtain ⟨a, b⟩ := pr
    rw [replaceAll_of_some hpat hsp]
    exact hmk.trans ⟨a, replaceAll pat rep b, by simp⟩

/-- An insertion (splice of `ins` between `X` and `Z`) cannot create an
occurrence of `p` when `p` cannot overlap `ins`. -/
theorem insert_noCreate {p ins X Z : List Char}
    (h1 : ¬ p <:+: ins) (h2 : ¬ ins <:+: p)
    (h3 : noSufPre p ins) (h4 : noPreSuf p ins)
    (hs : ¬ p <:+: X ++ Z) : ¬ p <:+: X ++ ins ++ Z := by
  intro hcon
  rw [List.append_assoc] at hcon
  rcases infix_append_cases hcon with hA | hcon2 | ⟨n, hn0, hnl, _, hdr⟩
  · exact hs (hA.trans ⟨[], Z, by simp⟩)
  · rcases infix_append_cases hcon2 with hB | hC | ⟨n, hn0, hnl, htk, _⟩
    · exact h1 hB
    · exact hs (hC.trans ⟨X, [], by simp⟩)
    · exact h4 n hnl hn0 htk
  · rcases prefix_append_cases hdr with hp1 | ⟨r, hr1, _⟩
    · exact h3 n hnl hn0 hp1
    · apply h2
      refine ⟨p.take n, r, ?_⟩
      have hsplit : p.take n ++ p.drop n = p := List.take_append_drop n p
      rw [hr1] at hsplit
      simpa using hsplit

/-! ## Data model (shared/schema.ts) -/

/-- Vulnerability severity: closed union `"critical" | "high" | "medium" | "low"`. -/
inductive Severity
  | critical
  | high
  | medium
  | low
deriving DecidableEq, Repr, BEq

/-- Category-result status: closed union `"passed" | "warning" | "critical" | "secure" | "failed"`. -/
inductive CheckStatus
  | passed
  | warning
  | critical
  | secure
  | failed
deriving DecidableEq, Repr, BEq

/-- `Vulnerability` record from shared/schema.ts.  The JS `number` field
`cvssScore` only ever holds exact decimal literals in this code base, so it is
embedded as a rational. -/
structure Vulnerability where
  id : String
  title : String
  description : String
  severity : Severity
  category : String
  location : String
  cvssScore : Option ℚ
  recommendation : Option String
deriving DecidableEq, Repr

/-- `SecurityCheck` record from shared/schema.ts. -/
structure SecurityCheck where
  status : CheckStatus
  issueCount : Nat
  details : String
  findings : List String
  vulnerabilities : List Vulnerability
  recommendations : List String
  codeSnippets : List String
deriving DecidableEq, Repr

/-! ## Scorer (performAnalysis, app/api/analyses/route.ts) -/

/-- Security-score computation from `performAnalysis`: count vulnerabilities
per severity, subtract fixed weights from 100, floor at 0
(`Math.max(0, securityScore)`). -/
def securityScore (vulns : List Vulnerability) : Int :=
  let criticalCount := (vulns.filter fun v => v.severity == Severity.critical).length
  let highCount := (vulns.filter fun v => v.severity == Severity.high).length
  let mediumCount := (vulns.filter fun v => v.severity == Severity.medium).length
  let lowCount := (vulns.filter fun v => v.severity == Severity.low).length
  max 0 (100 - 25 * (criticalCount : Int) - 15 * (highCount : Int)
    - 8 * (mediumCount : Int) - 3 * (lowCount : Int))

/-- The score exactly as the spec words it (§4.4): start at 100, subtract the
fixed per-severity weights, clamp to the closed interval [0, 100]. -/
def specClampedScore (vulns : List Vulnerability) : Int :=
  let criticalCount := (vulns.filter fun v => v.severity == Severity.critical).length
  let highCount := (vulns.filter fun v => v.severity == Severity.high).length
  let mediumCount := (vulns.filter fun v => v.severity == Severity.medium).length
  let lowCount := (vulns.filter fun v => v.severity == Severity.low).length
  min 100 (max 0 (100 - 25 * (criticalCount : Int) - 15 * (highCount : Int)
    - 8 * (mediumCount : Int) - 3 * (lowCount : Int)))

/-! ## Reconnaissance detector (APKAnalyzer.analyzeReconnaissance) -/

def dbgTrueLit : List Char := "android:debuggable=\"true\"".data
def abTrueLit : List Char := "android:allowBackup=\"true\"".data
def expTrueLit : List Char := "android:exported=\"true\"".data
def permAttrLit : List Char := "android:permission=".data

def reconDebugVuln : Vulnerability :=
  { id := "recon-001", title := "Debug Mode Enabled",
    description := "Application has debug mode enabled which can expose sensitive information",
    severity := Severity.medium, category := "Information Disclosure",
    location := "AndroidManifest.xml", cvssScore := some (53 / 10),
    recommendation := some "Disable debug mode in production builds" }

def reconBackupVuln : Vulnerability :=
  { id := "recon-002", title := "Backup Allowed",
    description := "Application allows backup which may expose sensitive data",
    severity := Severity.low, category := "Data Protection",
    location := "AndroidManifest.xml", cvssScore := some (31 / 10),
    recommendation := some "Disable backup for sensitive applications" }

def reconExportedVuln : Vulnerability :=
  { id := "recon-003", title := "Exported Components Without Protection",
    description := "Components are exported without proper permission checks",
    severity := Severity.high, category := "Access Control",
    location := "AndroidManifest.xml", cvssScore := some (75 / 10),
    recommendation := some "Add permission requirements to exported components" }

/-- The vulnerability list the reconnaissance detector accumulates from the
raw manifest text (three `content.includes` checks, in source order). -/
def reconVulns (content : List Char) : List Vulnerability :=
  (if containsL dbgTrueLit content then [reconDebugVuln] else []) ++
  (if containsL abTrueLit content then [reconBackupVuln] else []) ++
  (if containsL expTrueLit content && !(containsL permAttrLit content)
    then [reconExportedVuln] else [])

def reconFindings (content : List Char) : List String :=
  (if containsL dbgTrueLit content then ["Debug mode enabled in production"] else []) ++
  (if containsL abTrueLit content then ["Backup allowed for sensitive data"] else []) ++
  (if containsL expTrueLit content && !(containsL permAttrLit content)
    then ["Exported components without proper permissions"] else [])

def reconRecommendations (content : List Char) : List String :=
  (if containsL dbgTrueLit content
    then ["Set android:debuggable=\"false\" in production builds"] else []) ++
  (if containsL abTrueLit content
    then ["Set android:allowBackup=\"false\" for sensitive applications"] else []) ++
  (if containsL expTrueLit content && !(containsL permAttrLit content)
    then ["Add android:permission to all exported components"] else [])

def reconSnippets (content : List Char) : List String :=
  (if containsL dbgTrueLit content then ["android:debuggable=\"true\""] else []) ++
  (if containsL abTrueLit content then ["android:allowBackup=\"true\""] else []) ++
  (if containsL expTrueLit content && !(containsL permAttrLit content)
    then ["android:exported=\"true\" without permission"] else [])

/-- The status derivation every non-stub detector uses:
`vulnerabilities.length > 0 ? (some(high or critical) ? "critical" : "warning") : "passed"`. -/
def deriveStatus (vulns : List Vulnerability) : CheckStatus :=
  if vulns.length > 0 then
    if vulns.any fun v => v.severity == Severity.high || v.severity == Severity.critical
    then CheckStatus.critical
    else CheckStatus.warning
  else CheckStatus.passed

/-- `APKAnalyzer.analyzeReconnaissance`, as a function of the manifest file
content (`none` models `fs.existsSync(manifestPath)` returning false, in which
case all four accumulator arrays stay empty). -/
def analyzeReconnaissance (manifest : Option (List Char)) : SecurityCheck :=
  let vulns := match manifest with
    | none => []
    | some c => reconVulns c
  { status := deriveStatus vulns
    issueCount := vulns.length
    details := "Found " ++ toString vulns.length ++ " reconnaissance issues"
    findings := match manifest with
      | none => []
      | some c => reconFindings c
    vulnerabilities := vulns
    recommendations := match manifest with
      | none => []
      | some c => reconRecommendations c
    codeSnippets := match manifest with
      | none => []
      | some c => reconSnippets c }

/-! ## XSS detector (APKAnalyzer.analyzeXSS) -/

def xssJsEnabledLit : List Char := "setJavaScriptEnabled(true)".data
def xssAddJsIfaceLit : List Char := "addJavascriptInterface".data
def xssJsIfaceAnnLit : List Char := "@JavascriptInterface".data
def xssLoadUrlLit : List Char := "loadUrl(".data
def xssHttpsCheckLit : List Char := "startsWith(\"https://\")".data
def xssInnerHtmlLit : List Char := "innerHTML".data
def xssDocWriteLit : List Char := "document.write".data

def xssWebViewVuln (file : String) : Vulnerability :=
  { id := "xss-001", title := "Unsafe WebView JavaScript Configuration",
    description := "WebView has JavaScript enabled without proper JavascriptInterface protection",
    severity := Severity.high, category := "Cross-Site Scripting",
    location := file, cvssScore := some (75 / 10),
    recommendation := some "Implement proper JavascriptInterface annotations and input validation" }

def xssUrlVuln (file : String) : Vulnerability :=
  { id := "xss-002", title := "Unsafe URL Loading",
    description := "WebView loads URLs without proper validation",
    severity := Severity.medium, category := "Cross-Site Scripting",
    location := file, cvssScore := some (61 / 10),
    recommendation := some "Validate URLs before loading and use HTTPS only" }

def xssDomVuln (file : String) : Vulnerability :=
  { id := "xss-003", title := "DOM-based XSS Risk",
    description := "Code uses innerHTML or document.write which can lead to XSS",
    severity := Severity.high, category := "Cross-Site Scripting",
    location := file, cvssScore := some (82 / 10),
    recommendation := some "Use safe DOM manipulation methods and sanitize input" }

/-- The per-file vulnerability contributions of `analyzeXSS` (three
independent substring checks, in source order). -/
def xssVulnsForFile (file : String) (content : List Char) : List Vulnerability :=
  (if containsL xssJsEnabledLit content &&
      (!(containsL xssAddJsIfaceLit content) || !(containsL xssJsIfaceAnnLit content))
    then [xssWebViewVuln file] else []) ++
  (if containsL xssLoadUrlLit content && !(containsL xssHttpsCheckLit content)
    then [xssUrlVuln file] else []) ++
  (if containsL xssInnerHtmlLit content || containsL xssDocWriteLit content
    then [xssDomVuln file] else [])

/-- `APKAnalyzer.analyzeXSS`, as a function of the discovered source files
(path and content), in traversal order. -/
def analyzeXSS (files : List (String × List Char)) : SecurityCheck :=
  let vulns := files.flatMap fun f => xssVulnsForFile f.1 f.2
  { status := deriveStatus vulns
    issueCount := vulns.length
    details := "Found " ++ toString vulns.length ++ " XSS vulnerabilities"
    findings := []
    vulnerabilities := vulns
    recommendations := []
    codeSnippets := [] }

/-- The fixed result every stub detector assigns to its category. -/
def stubCheck (details : String) : SecurityCheck :=
  { status := CheckStatus.passed
    issueCount := 0
    details := details
    findings := []
    vulnerabilities := []
    recommendations := []
    codeSnippets := [] }

/-! ## Claims C3, C9, C4, C8 -/

/-- C3: For every list of vulnerabilities, the overall security score equals
100 minus 25 per critical, 15 per high, 8 per medium, and 3 per low
vulnerability, clamped to the closed interval [0, 100]; for the empty list the
score is exactly 100. -/
theorem c3_score_is_clamped_weighted_sum :
    (∀ vulns : List Vulnerability,
      securityScore vulns = specClampedScore vulns ∧
      0 ≤ securityScore vulns ∧ securityScore vulns ≤ 100) ∧
    securityScore [] = 100 := by
  constructor
  · intro vulns
    simp only [securityScore, specClampedScore]
    omega
  · rfl

/-- C9: Appending one more vulnerability never increases the score, and every
score lies in [0, 100]. -/
theorem c9_score_monotone_and_clamped :
    ∀ (L : List Vulnerability) (v : Vulnerability),
      securityScore (L ++ [v]) ≤ securityScore L ∧
      0 ≤ securityScore (L ++ [v]) ∧ securityScore (L ++ [v]) ≤ 100 ∧
      0 ≤ securityScore L ∧ securityScore L ≤ 100 := by
  intro L v
  simp only [securityScore, List.filter_append, List.length_append]
  cases hv : v.severity <;>
    simp only [List.filter, hv] <;> simp <;> omega

/-- The §3 invariant a CategoryResult must satisfy. -/
def statusInvariant (c : SecurityCheck) : Prop :=
  (c.status = CheckStatus.critical ↔
    ∃ v ∈ c.vulnerabilities,
      v.severity = Severity.critical ∨ v.severity = Severity.high) ∧
  ((¬ ∃ v ∈ c.vulnerabilities,
      v.severity = Severity.critical ∨ v.severity = Severity.high) →
    (c.status = CheckStatus.warning ↔ 0 < c.issueCount)) ∧
  ((¬ ∃ v ∈ c.vulnerabilities,
      v.severity = Severity.critical ∨ v.severity = Severity.high) →
    c.issueCount = 0 → c.status = CheckStatus.passed) ∧
  c.issueCount = c.vulnerabilities.length

theorem deriveStatus_invariant (vulns : List Vulnerability)
    (d : String) (f r s : List String) :
    statusInvariant ⟨deriveStatus vulns, vulns.length, d, f, vulns, r, s⟩ := by
  have hany : (vulns.any fun v =>
      v.severity == Severity.high || v.severity == Severity.critical) = true ↔
      ∃ v ∈ vulns, v.severity = Severity.critical ∨ v.severity = Severity.high := by
    rw [List.any_eq_true]
    constructor
    · rintro ⟨v, hv, hb⟩
      refine ⟨v, hv, ?_⟩
      revert hb
      cases v.severity <;> decide
    · rintro ⟨v, hv, hb⟩
      refine ⟨v, hv, ?_⟩
      rcases hb with h | h <;> rw [h] <;> decide
  constructor
  · simp only [deriveStatus]
    constructor
    · intro hcrit
      by_cases hlen : vulns.length > 0
      · rw [if_pos hlen] at hcrit
        by_cases hb : (vulns.any fun v =>
            v.severity == Severity.high || v.severity == Severity.critical) = true
        · exact hany.mp hb
        · rw [if_neg hb] at hcrit
          simp at hcrit
      · rw [if_neg hlen] at hcrit
        simp at hcrit
    · intro hex
      have hb := hany.mpr hex
      obtain ⟨v, hv, _⟩ := hex
      have hlen : vulns.length > 0 := List.length_pos.mpr (by rintro rfl; simp at hv)
      rw [if_pos hlen, if_pos hb]
  refine ⟨?_, ?_, rfl⟩
  · intro hnex
    have hb : (vulns.any fun v =>
        v.severity == Severity.high || v.severity == Severity.critical) ≠ true :=
      fun hb => hnex (hany.mp hb)
    simp only [deriveStatus]
    by_cases hlen : vulns.length > 0
    · rw [if_pos hlen, if_neg hb]
      simpa using hlen
    · rw [if_neg hlen]
      constructor
      · intro h; simp at h
      · intro h; omega
  · intro hnex hlen
    simp only [deriveStatus]
    rw [if_neg (by simpa using hlen)]

/-- C4: Every CategoryResult produced by a detector satisfies the §3 status
invariant: status is critical iff some contained vulnerability is critical or
high severity, else warning iff the issue count is positive, else passed; and
the issue count equals the number of contained vulnerabilities.  Covers the
reconnaissance detector (any manifest), the XSS detector (any file set), and
the fixed result of every stub detector. -/
theorem c4_detector_results_satisfy_invariant :
    (∀ manifest, statusInvariant (analyzeReconnaissance manifest)) ∧
    (∀ files, statusInvariant (analyzeXSS files)) ∧
    (∀ d, statusInvariant (stubCheck d)) := by
  refine ⟨?_, ?_, ?_⟩
  · intro manifest
    cases manifest with
    | none => exact deriveStatus_invariant [] _ _ _ _
    | some c => exact deriveStatus_invariant (reconVulns c) _ _ _ _
  · intro files
    exact deriveStatus_invariant (files.flatMap fun f => xssVulnsForFile f.1 f.2) _ _ _ _
  · intro d
    refine ⟨by simp [stubCheck], ?_, ?_, by simp [stubCheck]⟩
    · intro _
      simp [stubCheck]
    · intro _ _
      simp [stubCheck]

/-- C8: On a manifest containing the debuggable, allowBackup and exported
markers and no `android:permission=` anywhere, the reconnaissance detector
yields exactly the three vulnerabilities recon-001/recon-002/recon-003 with
severities medium, low, high, and the score of that vulnerability list is 74. -/
theorem c8_recon_three_vulns_score_74 (m : List Char)
    (h1 : containsL dbgTrueLit m = true)
    (h2 : containsL abTrueLit m = true)
    (h3 : containsL expTrueLit m = true)
    (h4 : containsL permAttrLit m = false) :
    (analyzeReconnaissance (some m)).vulnerabilities
        = [reconDebugVuln, reconBackupVuln, reconExportedVuln] ∧
    (analyzeReconnaissance (some m)).vulnerabilities.map Vulnerability.id
        = ["recon-001", "recon-002", "recon-003"] ∧
    (analyzeReconnaissance (some m)).vulnerabilities.map Vulnerability.severity
        = [Severity.medium, Severity.low, Severity.high] ∧
    (analyzeReconnaissance (some m)).issueCount = 3 ∧
    securityScore (analyzeReconnaissance (some m)).vulnerabilities = 74 := by
  have hv : (analyzeReconnaissance (some m)).vulnerabilities
      = [reconDebugVuln, reconBackupVuln, reconExportedVuln] := by
    simp [analyzeReconnaissance, reconVulns, h1, h2, h3, h4]
  refine ⟨hv, by rw [hv]; rfl, by rw [hv]; rfl, ?_, by rw [hv]; rfl⟩
  simp [analyzeReconnaissance, reconVulns, h1, h2, h3, h4]

def c8WitnessManifest : List Char :=
  ("<manifest><application android:debuggable=\"true\" android:allowBackup=\"true\">" ++
   "<activity android:exported=\"true\"/></application></manifest>").data

/-- Witness for C8 at a concrete manifest. -/
theorem c8_recon_three_vulns_score_74_witness :
    containsL dbgTrueLit c8WitnessManifest = true ∧
    containsL abTrueLit c8WitnessManifest = true ∧
    containsL expTrueLit c8WitnessManifest = true ∧
    containsL permAttrLit c8WitnessManifest = false ∧
    securityScore (analyzeReconnaissance (some c8WitnessManifest)).vulnerabilities = 74 :=
  ⟨by decide, by decide, by decide, by decide,
    (c8_recon_three_vulns_score_74 c8WitnessManifest
      (by decide) (by decide) (by decide) (by decide)).2.2.2.2⟩

/-! ## Extraction output paths (APKAnalyzer.extractAPK) -/

/-- One step of Node `path.normalize` segment processing for a relative base:
empty and `.` segments are dropped, `..` pops the previous real segment and is
kept when nothing is left to pop. -/
def normStep (acc : List String) (seg : String) : List String :=
  if seg = "" || seg = "." then acc
  else if seg = ".." then
    match acc.getLast? with
    | some last => if last = ".." then acc ++ [".."] else acc.dropLast
    | none => acc ++ [".."]
  else acc ++ [seg]

def normalizeSegs (segs : List String) : List String := segs.foldl normStep []

/-- Split a character list at every occurrence of `ch` (the semantics of
`String.split` with a single-character separator, used here for `/`). -/
def splitOnChar (ch : Char) : List Char → List (List Char)
  | [] => [[]]
  | c :: rest =>
    if c = ch then [] :: splitOnChar ch rest
    else
      match splitOnChar ch rest with
      | [] => [[c]]
      | seg :: segs => (c :: seg) :: segs

/-- Zip entry names use `/` separators. -/
def splitPath (s : String) : List String := (splitOnChar '/' s.data).map List.asString

/-- Node `path.join(base, name)` for a relative `base`, in segment form:
concatenate, then normalize (which resolves `..` segments). -/
def joinPath (base : List String) (name : String) : List String :=
  normalizeSegs (base ++ splitPath name)

/-- The on-disk path `extractAPK` writes a zip entry to:
`path.join(this.extractedPath, entry.fileName)`. -/
def extractOutputPath (root : List String) (name : String) : List String :=
  joinPath root name

/-- The property C1 asserts for every entry name. -/
def staysInsideRoot (root : List String) (name : String) : Prop :=
  root <+: extractOutputPath root name

/-- C1 (code evaluated at the failing input): a zip entry named
`../../evil.txt` is written to `evil.txt`, a path outside the scratch root
`uploads/extracted_1` — `path.join` resolves parent-directory segments instead
of rejecting or neutralising them, so the extraction escapes the root. -/
theorem c1_zip_slip_escape_exhibit :
    extractOutputPath ["uploads", "extracted_1"] "../../evil.txt" = ["evil.txt"] ∧
    ¬ staysInsideRoot ["uploads", "extracted_1"] "../../evil.txt" := by
  constructor
  · rfl
  · unfold staysInsideRoot
    decide

/-! ## Check pipeline (APKAnalyzer.runSecurityAnalyses) and job control flow -/

/-- The 25 categories of `AnalysisResult` (shared/schema.ts). -/
inductive Category
  | reconnaissance
  | subdomainEnumeration
  | portScanning
  | directoryEnumeration
  | vulnerabilityScanning
  | manualTesting
  | authenticationTesting
  | sessionManagement
  | inputValidation
  | sqlInjection
  | xss
  | csrf
  | ssrf
  | idor
  | rce
  | fileInclusion
  | clickjacking
  | rateLimiting
  | accessControl
  | businessLogic
  | apiTesting
  | mobileAppTesting
  | clientSideVulns
  | informationDisclosure
  | serverSideVulns
deriving DecidableEq, Repr

/-- The `AnalysisResult` record, embedded as a total map from category to its
`SecurityCheck`. -/
def AnalysisResult : Type := Category → SecurityCheck

/-- The `emptySecurityCheck` value of `initializeAnalysisResults`. -/
def emptySecurityCheck : SecurityCheck :=
  { status := CheckStatus.passed
    issueCount := 0
    details := ""
    findings := []
    vulnerabilities := []
    recommendations := []
    codeSnippets := [] }

/-- `APKAnalyzer.initializeAnalysisResults`: every category starts as a copy
of the empty check. -/
def initialAnalysisResults : AnalysisResult := fun _ => emptySecurityCheck

/-- The fixed detector registry order of `runSecurityAnalyses` (each entry
identified by the category it writes). -/
def analysesOrder : List Category :=
  [Category.reconnaissance, Category.xss, Category.csrf, Category.ssrf,
   Category.idor, Category.rce, Category.accessControl, Category.inputValidation,
   Category.sqlInjection, Category.sessionManagement, Category.authenticationTesting,
   Category.fileInclusion, Category.clickjacking, Category.rateLimiting,
   Category.businessLogic, Category.apiTesting, Category.mobileAppTesting,
   Category.clientSideVulns, Category.informationDisclosure, Category.serverSideVulns,
   Category.vulnerabilityScanning, Category.subdomainEnumeration, Category.portScanning,
   Category.directoryEnumeration, Category.manualTesting]

/-- One loop iteration of `runSecurityAnalyses`: the detector for category `c`
either returns a result (written to its own category) or throws (`none`),
which the `try/catch` inside the loop absorbs, leaving the results untouched. -/
def applyDetector (outcomes : Category → Option SecurityCheck)
    (res : AnalysisResult) (c : Category) : AnalysisResult :=
  match outcomes c with
  | none => res
  | some r => fun c2 => if c2 = c then r else res c2

/-- `APKAnalyzer.runSecurityAnalyses`: fold the registry over the initialized
results.  Total by construction, mirroring the per-detector `try/catch`. -/
def runSecurityAnalyses (outcomes : Category → Option SecurityCheck) : AnalysisResult :=
  analysesOrder.foldl (applyDetector outcomes) initialAnalysisResults

inductive JobStatus
  | pending
  | analyzing
  | completed
  | failed
deriving DecidableEq, Repr

/-- Outcome of `generateDevModeAPK` as observed by `analyzeAPK`: the returned
promise rejects, resolves to `null`, or resolves to an archive path. -/
inductive DevOutcome
  | threw
  | returnedNull
  | returnedPath
deriving DecidableEq, Repr

/-- Control flow of `APKAnalyzer.analyzeAPK` (lines 68–125).  Parameters are
the branch conditions of the real run: whether the APK file exists, whether
extraction succeeds, each detector's outcome, and the dev-mode outcome.  The
returned flag records whether `cleanup()` ran before control returned (it runs
in the catch handler on every thrown path, and before the return on the
signed-artifact path, but not on the `fixedApkPath == null` return path). -/
def analyzeAPK (fileExists extractOk : Bool)
    (outcomes : Category → Option SecurityCheck) (dev : DevOutcome) :
    Except Unit (AnalysisResult × Option String) × Bool :=
  if fileExists = false then (Except.error (), true)
  else if extractOk = false then (Except.error (), true)
  else
    match dev with
    | DevOutcome.threw => (Except.error (), true)
    | DevOutcome.returnedPath =>
        (Except.ok (runSecurityAnalyses outcomes, some "signed"), true)
    | DevOutcome.returnedNull =>
        (Except.ok (runSecurityAnalyses outcomes, none), false)

/-- `performAnalysis` maps a normal return of `analyzeAPK` to job status
`completed` and a thrown error to `failed`. -/
def jobStatus {α : Type} (r : Except Unit α) : JobStatus :=
  match r with
  | Except.ok _ => JobStatus.completed
  | Except.error _ => JobStatus.failed

/-- C2 (code evaluated at the failing input): on the exit path where dev-mode
generation resolves to `null`, `analyzeAPK` returns normally (lines 115–119)
without having run `cleanup()`; every other exit path does run it. -/
theorem c2_cleanup_skipped_on_null_artifact_path :
    (analyzeAPK true true (fun _ => some (stubCheck "done")) DevOutcome.returnedNull).2
        = false ∧
    (∃ res, (analyzeAPK true true (fun _ => some (stubCheck "done"))
        DevOutcome.returnedNull).1 = Except.ok res) ∧
    (∀ outcomes, (analyzeAPK true true outcomes DevOutcome.threw).2 = true) ∧
    (∀ outcomes, (analyzeAPK true true outcomes DevOutcome.returnedPath).2 = true) ∧
    (∀ extractOk outcomes dev, (analyzeAPK false extractOk outcomes dev).2 = true) ∧
    (∀ outcomes dev, (analyzeAPK true false outcomes dev).2 = true) := by
  refine ⟨rfl, ⟨_, rfl⟩, fun _ => rfl, fun _ => rfl, fun _ _ _ => rfl, fun _ _ => rfl⟩

theorem foldl_applyDetector_of_none {outcomes : Category → Option SecurityCheck}
    {c : Category} (hc : outcomes c = none) :
    ∀ (cats : List Category) (res : AnalysisResult),
      (cats.foldl (applyDetector outcomes) res) c = res c := by
  intro cats
  induction cats with
  | nil => intro res; rfl
  | cons c2 rest ih =>
    intro res
    rw [List.foldl_cons, ih]
    unfold applyDetector
    cases ho : outcomes c2 with
    | none => rfl
    | some r =>
      simp only []
      by_cases hcc : c = c2
      · rw [hcc] at hc
        rw [hc] at ho
        cases ho
      · simp [hcc]

theorem foldl_applyDetector_of_notMem {outcomes : Category → Option SecurityCheck} :
    ∀ (cats : List Category) (res : AnalysisResult) (c : Category), c ∉ cats →
      (cats.foldl (applyDetector outcomes) res) c = res c := by
  intro cats
  induction cats with
  | nil => intro res c _; rfl
  | cons c2 rest ih =>
    intro res c hc
    have hne : c ≠ c2 := fun h => hc (by simp [h])
    have hnr : c ∉ rest := fun h => hc (by simp [h])
    rw [List.foldl_cons, ih _ _ hnr]
    unfold applyDetector
    cases ho : outcomes c2 with
    | none => rfl
    | some r => simp [hne]

theorem foldl_applyDetector_of_some {outcomes : Category → Option SecurityCheck}
    {c : Category} {r : SecurityCheck} (hc : outcomes c = some r) :
    ∀ (cats : List Category) (res : AnalysisResult), c ∈ cats →
      (cats.foldl (applyDetector outcomes) res) c = r := by
  intro cats
  induction cats with
  | nil => intro res h; simp at h
  | cons c2 rest ih =>
    intro res hmem
    rw [List.foldl_cons]
    by_cases hr : c ∈ rest
    · exact ih _ hr
    · have hcc : c = c2 := by
        rcases List.mem_cons.mp hmem with h | h
        · exact h
        · exact absurd h hr
      subst hcc
      rw [foldl_applyDetector_of_notMem rest _ c hr]
      unfold applyDetector
      rw [hc]
      simp

theorem mem_analysesOrder (c : Category) : c ∈ analysesOrder := by
  cases c <;> decide

/-- C6: a detector that throws leaves its own category at the initialized
passed/0 result, every other detector's result is still recorded, and the job
still completes (the per-detector `try/catch` keeps the pipeline, and hence
`analyzeAPK`, from throwing). -/
theorem c6_detector_failure_isolated
    (outcomes : Category → Option SecurityCheck) (c : Category) (dev : DevOutcome)
    (hc : outcomes c = none) (hdev : dev ≠ DevOutcome.threw) :
    runSecurityAnalyses outcomes c = emptySecurityCheck ∧
    emptySecurityCheck.status = CheckStatus.passed ∧
    emptySecurityCheck.issueCount = 0 ∧
    (∀ c2 r, c2 ≠ c → outcomes c2 = some r → runSecurityAnalyses outcomes c2 = r) ∧
    jobStatus (analyzeAPK true true outcomes dev).1 = JobStatus.completed := by
  refine ⟨?_, rfl, rfl, ?_, ?_⟩
  · unfold runSecurityAnalyses
    rw [foldl_applyDetector_of_none hc]
    rfl
  · intro c2 r _ h2
    unfold runSecurityAnalyses
    exact foldl_applyDetector_of_some h2 _ _ (mem_analysesOrder c2)
  · cases dev with
    | threw => exact absurd rfl hdev
    | returnedNull => rfl
    | returnedPath => rfl

def c6Outcomes : Category → Option SecurityCheck :=
  fun c => if c = Category.reconnaissance then none else some (stubCheck "ok")

/-- Witness for C6: a run in which the reconnaissance detector throws. -/
theorem c6_detector_failure_isolated_witness :
    c6Outcomes Category.reconnaissance = none ∧
    runSecurityAnalyses c6Outcomes Category.reconnaissance = emptySecurityCheck ∧
    jobStatus (analyzeAPK true true c6Outcomes DevOutcome.returnedPath).1
        = JobStatus.completed := by
  refine ⟨by simp [c6Outcomes], ?_, ?_⟩
  · exact (c6_detector_failure_isolated c6Outcomes Category.reconnaissance
      DevOutcome.returnedPath (by simp [c6Outcomes]) (by simp)).1
  · exact (c6_detector_failure_isolated c6Outcomes Category.reconnaissance
      DevOutcome.returnedPath (by simp [c6Outcomes]) (by simp)).2.2.2.2

/-! ## Manifest dev-mode mutation (APKAnalyzer.enhanceManifestForDevMode) -/

def appLit : List Char := "<application".data
def dbgMarker : List Char := "android:debuggable=".data
def dbgFalse : List Char := "android:debuggable=\"false\"".data
def dbgTrueRep : List Char := "android:debuggable=\"true\"".data
def dbgAttrIns : List Char := " android:debuggable=\"true\"".data
def abMarker : List Char := "android:allowBackup=".data
def abFalse : List Char := "android:allowBackup=\"false\"".data
def abTrueRep : List Char := "android:allowBackup=\"true\"".data
def abAttrIns : List Char := " android:allowBackup=\"true\"".data
def nscMarker : List Char := "android:networkSecurityConfig=".data
def nscAttrIns : List Char :=
  " android:networkSecurityConfig=\"@xml/network_security_config\"".data
def manifestCloseLit : List Char := "</manifest>".data

/-- Split at the first occurrence of a single character (`[^>]*` followed by
`>` in the application-tag regex stops at the first `>`). -/
def splitAtChar (ch : Char) : List Char → Option (List Char × List Char)
  | [] => none
  | c :: rest =>
    if c = ch then some ([], rest)
    else
      match splitAtChar ch rest with
      | some (a, b) => some (c :: a, b)
      | none => none

/-- JS `str.replace(/<application([^>]*)>/, '<application$1' + attr + '>')`:
find the first `<application`, take the run of non-`>` characters after it,
and splice `attr` in front of the closing `>`.  No match leaves `s` unchanged
(also when no `>` follows the first `<application`). -/
def appTagInsert (attr : List Char) (s : List Char) : List Char :=
  match splitFirst appLit s with
  | none => s
  | some (pre, post) =>
    match splitAtChar '>' post with
    | none => s
    | some (inner, rest) => pre ++ appLit ++ inner ++ attr ++ '>' :: rest

/-- First mutation block: force `android:debuggable="true"`. -/
def stepDebuggable (m : List Char) : List Char :=
  if containsL dbgMarker m then replaceAll dbgFalse dbgTrueRep m
  else appTagInsert dbgAttrIns m

/-- Second mutation block: force `android:allowBackup="true"`. -/
def stepAllowBackup (m : List Char) : List Char :=
  if containsL abMarker m then replaceAll abFalse abTrueRep m
  else appTagInsert abAttrIns m

/-- Third mutation block: reference the network-security config if absent. -/
def stepNetworkSecurity (m : List Char) : List Char :=
  if containsL nscMarker m then m else appTagInsert nscAttrIns m

/-- The fixed test-permission list, in `forEach` order. -/
def testPermissions : List (List Char) :=
  ["android.permission.WRITE_EXTERNAL_STORAGE".data,
   "android.permission.READ_EXTERNAL_STORAGE".data,
   "android.permission.INTERNET".data,
   "android.permission.ACCESS_NETWORK_STATE".data,
   "android.permission.ACCESS_WIFI_STATE".data,
   "com.android.vending.BILLING".data]

def permLine (p : List Char) : List Char :=
  "    <uses-permission android:name=\"".data ++ p ++ "\" />\n".data

/-- One `forEach` iteration: append the permission declaration before
`</manifest>` unless the permission string already occurs. -/
def addPermission (m p : List Char) : List Char :=
  if containsL p m then m
  else replaceFirst manifestCloseLit (permLine p ++ manifestCloseLit) m

/-- `APKAnalyzer.enhanceManifestForDevMode`. -/
def enhanceManifestForDevMode (m : List Char) : List Char :=
  testPermissions.foldl addPermission
    (stepNetworkSecurity (stepAllowBackup (stepDebuggable m)))

def enhanceManifestStr (s : String) : String :=
  (enhanceManifestForDevMode s.data).asString

/-- `APKAnalyzer.createNetworkSecurityConfig`. -/
def createNetworkSecurityConfig : String :=
  "<?xml version=\"1.0\" encoding=\"utf-8\"?>\n<network-security-config>\n    <domain-config cleartextTrafficPermitted=\"true\">\n        <domain includeSubdomains=\"true\">localhost</domain>\n        <domain includeSubdomains=\"true\">10.0.2.2</domain>\n        <domain includeSubdomains=\"true\">127.0.0.1</domain>\n    </domain-config>\n    <debug-overrides>\n        <trust-anchors>\n            <certificates src=\"user\"/>\n            <certificates src=\"system\"/>\n        </trust-anchors>\n    </debug-overrides>\n</network-security-config>"

/-! ## Repackager archive contents (APKAnalyzer.generateDevModeAPK) -/

/-- JS `String.prototype.endsWith`, executable over the character lists. -/
def strEndsWith (s suf : String) : Bool := suf.data.isSuffixOf s.data

/-- `findFiles` extension allow-list check and the `addRemainingFiles` skip
conditions, both applied to a directory item name (the base name). -/
def isSourceName (base : String) : Bool :=
  strEndsWith base ".java" || strEndsWith base ".kt" || strEndsWith base ".smali"

/-- `addRemainingFiles` keeps a file iff its base name has none of the source
extensions and is not `AndroidManifest.xml`. -/
def keepRemaining (e : List String × String) : Bool :=
  match e.1.getLast? with
  | none => false
  | some base => !(isSourceName base) && !(decide (base = "AndroidManifest.xml"))

/-- `APKAnalyzer.addRemainingFiles`, on an extraction tree given as the list
of files (segment path, content) in traversal order. -/
def addRemainingFiles (tree : List (List String × String)) : List (List String × String) :=
  tree.filter keepRemaining

/-- `fs.existsSync(path.join(this.extractedPath, "AndroidManifest.xml"))`. -/
def hasManifest (tree : List (List String × String)) : Bool :=
  tree.any fun e => decide (e.1 = ["AndroidManifest.xml"])

def manifestContentOf (tree : List (List String × String)) : Option String :=
  (tree.find? fun e => decide (e.1 = ["AndroidManifest.xml"])).map Prod.snd

def networkSecurityConfigPath : List String := ["res", "xml", "network_security_config.xml"]

/-- The files `processSourceFilesForDevMode` rewrites. -/
def sourceFiles (tree : List (List String × String)) : List (List String × String) :=
  tree.filter fun e =>
    match e.1.getLast? with
    | none => false
    | some base => isSourceName base

/-- Entry list of the archive `generateDevModeAPK` builds.  With a manifest
present: the mutated manifest, the generated network-security resource, the
rewritten source files (rewriting abstracted as `procSrc`), then the remaining
files.  With no manifest present: only `addRemainingFiles` runs (the `else`
branch at line 730 adds nothing else). -/
def generateDevModeAPK (procSrc : String → String)
    (tree : List (List String × String)) : List (List String × String) :=
  if hasManifest tree then
    match manifestContentOf tree with
    | some mc =>
        (["AndroidManifest.xml"], enhanceManifestStr mc)
          :: (networkSecurityConfigPath, createNetworkSecurityConfig)
          :: ((sourceFiles tree).map fun e => (e.1, procSrc e.2)) ++ addRemainingFiles tree
    | none => addRemainingFiles tree
  else addRemainingFiles tree

def c5Tree : List (List String × String) :=
  [(["A.java"], "class A"), (["res", "icon.png"], "PNG")]

/-- C5 counterexample: with the manifest absent, the produced archive misses
the original non-manifest entry `A.java` (a source file) and does not contain
the network-security resource, refuting the claim as stated. -/
theorem c5_no_manifest_counterexample :
    hasManifest c5Tree = false ∧
    generateDevModeAPK id c5Tree = [(["res", "icon.png"], "PNG")] ∧
    (["A.java"], "class A") ∈ c5Tree ∧
    (["A.java"], "class A") ∉ generateDevModeAPK id c5Tree ∧
    networkSecurityConfigPath ∉ (generateDevModeAPK id c5Tree).map Prod.fst := by
  refine ⟨rfl, rfl, by decide, by decide, by decide⟩

/-- C5 (amended): with no manifest present, the output archive consists of
exactly the original entries that are neither source files nor named
`AndroidManifest.xml`, unchanged and in traversal order (a sublist of the
tree); in particular no network-security resource and no processed source
files are added. -/
theorem c5_no_manifest_keeps_only_remaining (procSrc : String → String)
    (tree : List (List String × String)) (h : hasManifest tree = false) :
    generateDevModeAPK procSrc tree = addRemainingFiles tree ∧
    (∀ e, e ∈ generateDevModeAPK procSrc tree ↔ e ∈ tree ∧ keepRemaining e = true) ∧
    (generateDevModeAPK procSrc tree).Sublist tree := by
  have hg : generateDevModeAPK procSrc tree = addRemainingFiles tree := by
    unfold generateDevModeAPK
    rw [if_neg (by simp [h])]
  refine ⟨hg, ?_, ?_⟩
  · intro e
    rw [hg]
    unfold addRemainingFiles
    simp [List.mem_filter]
  · rw [hg]
    exact List.filter_sublist _

/-- Witness for C5 (amended) at a concrete tree. -/
theorem c5_no_manifest_keeps_only_remaining_witness :
    hasManifest c5Tree = false ∧
    generateDevModeAPK id c5Tree = addRemainingFiles c5Tree :=
  ⟨by decide, (c5_no_manifest_keeps_only_remaining id c5Tree (by decide)).1⟩

/-! ## Signer (APKSigner.signApk / alignApk) -/

theorem splitAtChar_some {ch : Char} {s a b : List Char}
    (h : splitAtChar ch s = some (a, b)) : s = a ++ ch :: b ∧ ch ∉ a := by
  induction s generalizing a b with
  | nil => simp [splitAtChar] at h
  | cons c rest ih =>
    unfold splitAtChar at h
    by_cases hc : c = ch
    · simp only [hc, if_true, Option.some.injEq, Prod.mk.injEq] at h
      subst hc
      simp [← h.1, ← h.2]
    · rw [if_neg hc] at h
      cases hsp : splitAtChar ch rest with
      | none => simp [hsp] at h
      | some pr =>
        obtain ⟨a2, b2⟩ := pr
        simp only [hsp, Option.some.injEq, Prod.mk.injEq] at h
        obtain ⟨hrest, hnot⟩ := ih (a := a2) (b := b2) (by simp [hsp])
        rw [← h.1, ← h.2]
        constructor
        · simp [hrest]
        · simp only [List.mem_cons]
          rintro (h1 | h1)
          · exact hc h1.symm
          · exact hnot h1

theorem splitAtChar_none {ch : Char} {s : List Char}
    (h : splitAtChar ch s = none) : ch ∉ s := by
  induction s with
  | nil => simp
  | cons c rest ih =>
    unfold splitAtChar at h
    by_cases hc : c = ch
    · simp [hc] at h
    · rw [if_neg hc] at h
      cases hsp : splitAtChar ch rest with
      | none =>
        simp only [List.mem_cons]
        rintro (h1 | h1)
        · exact hc h1.symm
        · exact ih hsp h1
      | some pr => simp [hsp] at h

/-- A "bad match" for the application-tag regex: an occurrence of
`<application` with a `>` somewhere after it.  `appTagInsert` rewrites the
string iff a bad match exists. -/
def BadMatch (s : List Char) : Prop :=
  ∃ u v, s = u ++ appLit ++ v ∧ '>' ∈ v

theorem BadMatch_mono {b s : List Char} (h : b <:+: s) :
    BadMatch b → BadMatch s := by
  rintro ⟨u, v, hb, hv⟩
  obtain ⟨g, k, hg⟩ := h
  exact ⟨g ++ u, v ++ k, by rw [← hg, hb]; simp, by simp [hv]⟩

theorem appTagInsert_id_of_noBad {attr s : List Char} (h : ¬ BadMatch s) :
    appTagInsert attr s = s := by
  cases hsp : splitFirst appLit s with
  | none => unfold appTagInsert; simp [hsp]
  | some pr =>
    obtain ⟨pre, post⟩ := pr
    cases hgt : splitAtChar '>' post with
    | none => unfold appTagInsert; simp [hsp, hgt]
    | some pr2 =>
      obtain ⟨inner, rest⟩ := pr2
      exfalso
      apply h
      obtain ⟨hpost, _⟩ := splitAtChar_some hgt
      exact ⟨pre, post, splitFirst_eq_some hsp, by simp [hpost]⟩

/-- Case analysis of `appTagInsert`: either nothing matches (no occurrence of
`<application` followed by a later `>`) and the string is unchanged, or the
first match is spliced. -/
theorem appTagInsert_spec (attr s : List Char) :
    (appTagInsert attr s = s ∧ ¬ BadMatch s) ∨
    (∃ pre inner rest, s = (pre ++ appLit ++ inner) ++ '>' :: rest ∧
      appTagInsert attr s = (pre ++ appLit ++ inner) ++ attr ++ '>' :: rest) := by
  cases hsp : splitFirst appLit s with
  | none =>
    left
    refine ⟨by unfold appTagInsert; rw [hsp], ?_⟩
    rintro ⟨u, v, huv, _⟩
    exact splitFirst_none hsp ⟨u, v, huv.symm⟩
  | some pr =>
    obtain ⟨pre, post⟩ := pr
    have hseq : s = pre ++ appLit ++ post := splitFirst_eq_some hsp
    cases hgt : splitAtChar '>' post with
    | none =>
      left
      have hngt : '>' ∉ post := splitAtChar_none hgt
      refine ⟨by unfold appTagInsert; simp [hsp, hgt], ?_⟩
      rintro ⟨u, v, huv, hv⟩
      have hmin : pre.length ≤ u.length := splitFirst_min hsp huv
      have hvs : v <:+ s := ⟨u ++ appLit, by rw [huv]⟩
      have hps : post <:+ s := ⟨pre ++ appLit, by rw [hseq]⟩
      have hlen : v.length ≤ post.length := by
        have h1 := congrArg List.length huv
        have h2 := congrArg List.length hseq
        simp [List.length_append] at h1 h2
        omega
      exact hngt ((List.suffix_of_suffix_length_le hvs hps hlen).subset hv)
    | some pr2 =>
      obtain ⟨inner, rest⟩ := pr2
      right
      obtain ⟨hpost, _⟩ := splitAtChar_some hgt
      refine ⟨pre, inner, rest, by rw [hseq, hpost]; simp, ?_⟩
      unfold appTagInsert
      simp [hsp, hgt]

/-- An actual splice by `appTagInsert` implies the string had a bad match. -/
theorem badMatch_of_splice {pre inner rest : List Char}
    : BadMatch ((pre ++ appLit ++ inner) ++ '>' :: rest) :=
  ⟨pre, inner ++ '>' :: rest, by simp, by simp⟩

theorem mem_replaceAll {pat rep : List Char} {c : Char} (hpat : pat ≠ [])
    (hc : c ∉ rep) : ∀ s, c ∈ replaceAll pat rep s → c ∈ s := by
  suffices H : ∀ N s, s.length ≤ N → c ∈ replaceAll pat rep s → c ∈ s by
    exact fun s => H s.length s le_rfl
  intro N
  induction N with
  | zero =>
    intro s hlen
    have : s = [] := by
      cases s with
      | nil => rfl
      | cons a t => simp at hlen
    subst this
    rw [replaceAll_of_none hpat (by
      unfold splitFirst
      simp [List.isEmpty_iff, hpat])]
    exact fun h => h
  | succ N ih =>
    intro s hlen
    cases hsp : splitFirst pat s with
    | none =>
      rw [replaceAll_of_none hpat hsp]
      exact fun h => h
    | some pr =>
      obtain ⟨a, b⟩ := pr
      rw [replaceAll_of_some hpat hsp]
      have hseq : s = a ++ pat ++ b := splitFirst_eq_some hsp
      have hblen : b.length ≤ N := by
        have := splitFirst_length_lt hsp hpat
        omega
      intro hmem
      rcases List.mem_append.mp hmem with hm | hm
      · rcases List.mem_append.mp hm with hm2 | hm2
        · rw [hseq]; simp [hm2]
        · exact absurd hm2 hc
      · have := ih b hblen hm
        rw [hseq]; simp [this]

/-- Splicing `ins` between `X` and `Z` preserves the absence of a bad match,
provided `Z` already contains a `>` (true for all the splices reached: the
permission insertion point is right before `</manifest>`). -/
theorem insert_noBad_gt {ins X Z : List Char}
    (hZ : '>' ∈ Z)
    (h1 : ¬ appLit <:+: ins) (h2 : ¬ ins <:+: appLit)
    (h3 : noSufPre appLit ins) (h4 : noPreSuf appLit ins)
    (hs : ¬ BadMatch (X ++ Z)) : ¬ BadMatch (X ++ ins ++ Z) := by
  rintro ⟨u, v, huv, hgt⟩
  have huv' : X ++ (ins ++ Z) = u ++ appLit ++ v := by
    rw [← huv]; simp
  rcases occ_append_cases huv' with ⟨x2, hX, hv⟩ | ⟨u2, hu, hY⟩ | ⟨n, hn0, hnl, hX, hY⟩
  · exact hs ⟨u, x2 ++ Z, by rw [hX]; simp, by simp [hZ]⟩
  · rcases occ_append_cases hY with ⟨x3, hIns, _⟩ | ⟨u3, hu3, hZ2⟩ | ⟨n, hn0, hnl, hIns, _⟩
    · exact h1 ⟨u2, x3, hIns.symm⟩
    · exact hs ⟨X ++ u3, v, by rw [hZ2]; simp, hgt⟩
    · exact h4 n hnl hn0 ⟨u2, hIns.symm⟩
  · have hdr : appLit.drop n <+: ins ++ Z := ⟨v, hY.symm⟩
    rcases prefix_append_cases hdr with hp1 | ⟨r, hr1, _⟩
    · exact h3 n hnl hn0 hp1
    · apply h2
      refine ⟨appLit.take n, r, ?_⟩
      have hsplit := List.take_append_drop n appLit
      rw [hr1] at hsplit
      simpa using hsplit

/-- A global replace whose replacement text is `>`-free and cannot overlap
`<application` preserves the absence of a bad match. -/
theorem replaceAll_noBad {pat rep : List Char} (hpat : pat ≠ [])
    (hgt : '>' ∉ rep)
    (h1 : ¬ appLit <:+: rep) (h2 : ¬ rep <:+: appLit)
    (h3 : noSufPre appLit rep) (h4 : noPreSuf appLit rep) :
    ∀ s, ¬ BadMatch s → ¬ BadMatch (replaceAll pat rep s) := by
  suffices H : ∀ N s, s.length ≤ N → ¬ BadMatch s → ¬ BadMatch (replaceAll pat rep s) by
    exact fun s => H s.length s le_rfl
  intro N
  induction N with
  | zero =>
    intro s hlen hs
    have : s = [] := by
      cases s with
      | nil => rfl
      | cons a t => simp at hlen
    subst this
    rw [replaceAll_of_none hpat (by
      unfold splitFirst
      simp [List.isEmpty_iff, hpat])]
    exact hs
  | succ N ih =>
    intro s hlen hs
    cases hsp : splitFirst pat s with
    | none =>
      rw [replaceAll_of_none hpat hsp]
      exact hs
    | some pr =>
      obtain ⟨a, b⟩ := pr
      rw [replaceAll_of_some hpat hsp]
      have hseq : s = a ++ pat ++ b := splitFirst_eq_some hsp
      have hblen : b.length ≤ N := by
        have := splitFirst_length_lt hsp hpat
        omega
      have hnb : ¬ BadMatch b := fun hb =>
        hs (BadMatch_mono ⟨a ++ pat, [], by rw [hseq]; simp⟩ hb)
      have hR := ih b hblen hnb
      rintro ⟨u, v, huv, hv⟩
      have huv' : a ++ (rep ++ replaceAll pat rep b) = u ++ appLit ++ v := by
        rw [← huv]; simp
      rcases occ_append_cases huv' with ⟨x2, hA, hveq⟩ | ⟨u2, hu, hY⟩ |
        ⟨n, hn0, hnl, hA, hY⟩
      · rw [hveq] at hv
        rcases List.mem_append.mp hv with hm | hm
        · exact hs ⟨u, x2 ++ pat ++ b, by rw [hseq, hA]; simp, by simp [hm]⟩
        · rcases List.mem_append.mp hm with hm2 | hm2
          · exact hgt hm2
          · have : '>' ∈ b := mem_replaceAll hpat hgt b hm2
            exact hs ⟨u, x2 ++ pat ++ b, by rw [hseq, hA]; simp, by simp [this]⟩
      · rcases occ_append_cases hY with ⟨x3, hIns, _⟩ | ⟨u3, hu3, hZ2⟩ |
          ⟨n, hn0, hnl, hIns, _⟩
        · exact h1 ⟨u2, x3, hIns.symm⟩
        · exact hR ⟨u3, v, hZ2, hv⟩
        · exact h4 n hnl hn0 ⟨u2, hIns.symm⟩
      · have hdr : appLit.drop n <+: rep ++ replaceAll pat rep b := ⟨v, hY.symm⟩
        rcases prefix_append_cases hdr with hp1 | ⟨r, hr1, _⟩
        · exact h3 n hnl hn0 hp1
        · apply h2
          refine ⟨appLit.take n, r, ?_⟩
          have hsplit := List.take_append_drop n appLit
          rw [hr1] at hsplit
          simpa using hsplit

/-- Invariant after one pass, first mutation block: either the debuggable
marker is present and no `android:debuggable="false"` occurrence remains, or
the marker is absent and the application-tag regex cannot match. -/
def InvD (s : List Char) : Prop :=
  (containsL dbgMarker s = true ∧ ¬ dbgFalse <:+: s) ∨
  (containsL dbgMarker s = false ∧ ¬ BadMatch s)

/-- Invariant after one pass, second mutation block (allowBackup). -/
def InvA (s : List Char) : Prop :=
  (containsL abMarker s = true ∧ ¬ abFalse <:+: s) ∨
  (containsL abMarker s = false ∧ ¬ BadMatch s)

/-- Invariant after one pass, third mutation block (networkSecurityConfig). -/
def InvN (s : List Char) : Prop :=
  containsL nscMarker s = true ∨ ¬ BadMatch s

/-- Invariant after one pass, permission block: every test permission is
present, or no `</manifest>` insertion point exists. -/
def InvP (s : List Char) : Prop :=
  ∀ p ∈ testPermissions, containsL p s = true ∨ ¬ manifestCloseLit <:+: s

theorem stepDebuggable_id {s : List Char} (h : InvD s) : stepDebuggable s = s := by
  unfold stepDebuggable
  rcases h with ⟨hc, hnf⟩ | ⟨hc, hnb⟩
  · rw [if_pos hc]
    exact replaceAll_id_of_no_occurrence (by decide) hnf
  · rw [if_neg (by simp [hc])]
    exact appTagInsert_id_of_noBad hnb

theorem stepAllowBackup_id {s : List Char} (h : InvA s) : stepAllowBackup s = s := by
  unfold stepAllowBackup
  rcases h with ⟨hc, hnf⟩ | ⟨hc, hnb⟩
  · rw [if_pos hc]
    exact replaceAll_id_of_no_occurrence (by decide) hnf
  · rw [if_neg (by simp [hc])]
    exact appTagInsert_id_of_noBad hnb

theorem stepNetworkSecurity_id {s : List Char} (h : InvN s) : stepNetworkSecurity s = s := by
  unfold stepNetworkSecurity
  by_cases hc : containsL nscMarker s = true
  · rw [if_pos hc]
  · rw [if_neg hc]
    rcases h with hc2 | hnb
    · exact absurd hc2 hc
    · exact appTagInsert_id_of_noBad hnb

theorem addPermission_id {s p : List Char}
    (h : containsL p s = true ∨ ¬ manifestCloseLit <:+: s) : addPermission s p = s := by
  unfold addPermission
  by_cases hc : containsL p s = true
  · rw [if_pos hc]
  · rw [if_neg hc]
    rcases h with hc2 | hn
    · exact absurd hc2 hc
    · exact replaceFirst_id_of_no_occurrence hn

theorem foldl_addPermission_id :
    ∀ (l : List (List Char)) (s : List Char),
      (∀ p ∈ l, containsL p s = true ∨ ¬ manifestCloseLit <:+: s) →
      l.foldl addPermission s = s := by
  intro l
  induction l with
  | nil => intro s _; rfl
  | cons q rest ih =>
    intro s h
    rw [List.foldl_cons, addPermission_id (h q (by simp))]
    exact ih s fun p hp => h p (by simp [hp])

/-- Second-pass identity: the four invariants make every mutation block a
no-op. -/
theorem enhance_id_of_invariants {s : List Char}
    (hD : InvD s) (hA : InvA s) (hN : InvN s) (hP : InvP s) :
    enhanceManifestForDevMode s = s := by
  unfold enhanceManifestForDevMode
  rw [stepDebuggable_id hD, stepAllowBackup_id hA, stepNetworkSecurity_id hN]
  exact foldl_addPermission_id _ _ hP

theorem containsL_false_of_no_occurrence {pat s : List Char} (h : ¬ pat <:+: s) :
    containsL pat s = false := containsL_eq_false_iff.mpr h

/-- The first mutation block establishes its own invariant on any input. -/
theorem invD_stepDebuggable (m : List Char) : InvD (stepDebuggable m) := by
  unfold stepDebuggable
  by_cases hc : containsL dbgMarker m = true
  · rw [if_pos hc]
    left
    refine ⟨?_, ?_⟩
    · exact containsL_iff.mpr (replaceAll_marker (by decide) (by decide)
        (containsL_iff.mp hc))
    · exact replaceAll_removes_all (by decide) (by decide) (by decide)
        (by decide) (by decide) m
  · rw [if_neg hc]
    have hcf : containsL dbgMarker m = false := by
      cases h2 : containsL dbgMarker m
      · rfl
      · exact absurd h2 hc
    have hnm : ¬ dbgMarker <:+: m := containsL_eq_false_iff.mp hcf
    have hnf : ¬ dbgFalse <:+: m := fun hinf =>
      hnm ((List.IsPrefix.isInfix (by decide)).trans hinf)
    rcases appTagInsert_spec dbgAttrIns m with ⟨heq, hnb⟩ | ⟨pre, inner, rest, hs, hres⟩
    · rw [heq]
      exact Or.inr ⟨hcf, hnb⟩
    · rw [hres]
      left
      refine ⟨?_, ?_⟩
      · exact containsL_iff.mpr ((show dbgMarker <:+: dbgAttrIns by decide).trans
          ⟨pre ++ appLit ++ inner, '>' :: rest, by simp⟩)
      · rw [hs] at hnf
        exact insert_noCreate (by decide) (by decide) (by decide) (by decide) hnf

/-- The second mutation block establishes its own invariant on any input. -/
theorem invA_stepAllowBackup (m : List Char) : InvA (stepAllowBackup m) := by
  unfold stepAllowBackup
  by_cases hc : containsL abMarker m = true
  · rw [if_pos hc]
    left
    refine ⟨?_, ?_⟩
    · exact containsL_iff.mpr (replaceAll_marker (by decide) (by decide)
        (containsL_iff.mp hc))
    · exact replaceAll_removes_all (by decide) (by decide) (by decide)
        (by decide) (by decide) m
  · rw [if_neg hc]
    have hcf : containsL abMarker m = false := by
      cases h2 : containsL abMarker m
      · rfl
      · exact absurd h2 hc
    have hnm : ¬ abMarker <:+: m := containsL_eq_false_iff.mp hcf
    have hnf : ¬ abFalse <:+: m := fun hinf =>
      hnm ((List.IsPrefix.isInfix (by decide)).trans hinf)
    rcases appTagInsert_spec abAttrIns m with ⟨heq, hnb⟩ | ⟨pre, inner, rest, hs, hres⟩
    · rw [heq]
      exact Or.inr ⟨hcf, hnb⟩
    · rw [hres]
      left
      refine ⟨?_, ?_⟩
      · exact containsL_iff.mpr ((show abMarker <:+: abAttrIns by decide).trans
          ⟨pre ++ appLit ++ inner, '>' :: rest, by simp⟩)
      · rw [hs] at hnf
        exact insert_noCreate (by decide) (by decide) (by decide) (by decide) hnf

/-- The second mutation block preserves the first block's invariant. -/
theorem invD_stepAllowBackup {x : List Char} (h : InvD x) : InvD (stepAllowBackup x) := by
  unfold stepAllowBackup
  by_cases hab : containsL abMarker x = true
  · rw [if_pos hab]
    rcases h with ⟨hc, hnf⟩ | ⟨hc, hnb⟩
    · left
      refine ⟨?_, ?_⟩
      · exact containsL_iff.mpr (replaceAll_preserve (by decide) (by decide)
          (by decide) (by decide) (by decide) x (containsL_iff.mp hc))
      · exact replaceAll_noCreate (by decide) (by decide) (by decide)
          (by decide) (by decide) x hnf
    · right
      refine ⟨?_, ?_⟩
      · exact containsL_false_of_no_occurrence (replaceAll_noCreate (by decide)
          (by decide) (by decide) (by decide) (by decide) x
          (containsL_eq_false_iff.mp hc))
      · exact replaceAll_noBad (by decide) (by decide) (by decide) (by decide)
          (by decide) (by decide) x hnb
  · rw [if_neg hab]
    rcases appTagInsert_spec abAttrIns x with ⟨heq, _⟩ | ⟨pre, inner, rest, hs, hres⟩
    · rw [heq]; exact h
    · rw [hres]
      rcases h with ⟨hc, hnf⟩ | ⟨hc, hnb⟩
      · left
        refine ⟨?_, ?_⟩
        · apply containsL_iff.mpr
          have hinf : dbgMarker <:+: (pre ++ appLit ++ inner) ++ '>' :: rest := by
            rw [← hs]; exact containsL_iff.mp hc
          rcases infix_append_fresh hinf rfl (by decide) with hx | hz
          · exact hx.trans ⟨[], abAttrIns ++ '>' :: rest, by simp⟩
          · exact hz.trans ⟨(pre ++ appLit ++ inner) ++ abAttrIns, [], by simp⟩
        · rw [hs] at hnf
          exact insert_noCreate (by decide) (by decide) (by decide) (by decide) hnf
      · exact absurd (by rw [hs]; exact badMatch_of_splice) hnb

/-- The third mutation block preserves the first block's invariant. -/
theorem invD_stepNetworkSecurity {x : List Char} (h : InvD x) :
    InvD (stepNetworkSecurity x) := by
  unfold stepNetworkSecurity
  by_cases hn : containsL nscMarker x = true
  · rw [if_pos hn]; exact h
  · rw [if_neg hn]
    rcases appTagInsert_spec nscAttrIns x with ⟨heq, _⟩ | ⟨pre, inner, rest, hs, hres⟩
    · rw [heq]; exact h
    · rw [hres]
      rcases h with ⟨hc, hnf⟩ | ⟨hc, hnb⟩
      · left
        refine ⟨?_, ?_⟩
        · apply containsL_iff.mpr
          have hinf : dbgMarker <:+: (pre ++ appLit ++ inner) ++ '>' :: rest := by
            rw [← hs]; exact containsL_iff.mp hc
          rcases infix_append_fresh hinf rfl (by decide) with hx | hz
          · exact hx.trans ⟨[], nscAttrIns ++ '>' :: rest, by simp⟩
          · exact hz.trans ⟨(pre ++ appLit ++ inner) ++ nscAttrIns, [], by simp⟩
        · rw [hs] at hnf
          exact insert_noCreate (by decide) (by decide) (by decide) (by decide) hnf
      · exact absurd (by rw [hs]; exact badMatch_of_splice) hnb

/-- The third mutation block preserves the second block's invariant. -/
theorem invA_stepNetworkSecurity {x : List Char} (h : InvA x) :
    InvA (stepNetworkSecurity x) := by
  unfold stepNetworkSecurity
  by_cases hn : containsL nscMarker x = true
  · rw [if_pos hn]; exact h
  · rw [if_neg hn]
    rcases appTagInsert_spec nscAttrIns x with ⟨heq, _⟩ | ⟨pre, inner, rest, hs, hres⟩
    · rw [heq]; exact h
    · rw [hres]
      rcases h with ⟨hc, hnf⟩ | ⟨hc, hnb⟩
      · left
        refine ⟨?_, ?_⟩
        · apply containsL_iff.mpr
          have hinf : abMarker <:+: (pre ++ appLit ++ inner) ++ '>' :: rest := by
            rw [← hs]; exact containsL_iff.mp hc
          rcases infix_append_fresh hinf rfl (by decide) with hx | hz
          · exact hx.trans ⟨[], nscAttrIns ++ '>' :: rest, by simp⟩
          · exact hz.trans ⟨(pre ++ appLit ++ inner) ++ nscAttrIns, [], by simp⟩
        · rw [hs] at hnf
          exact insert_noCreate (by decide) (by decide) (by decide) (by decide) hnf
      · exact absurd (by rw [hs]; exact badMatch_of_splice) hnb

/-- The third mutation block establishes its own invariant on any input. -/
theorem invN_stepNetworkSecurity (x : List Char) : InvN (stepNetworkSecurity x) := by
  unfold stepNetworkSecurity
  by_cases hn : containsL nscMarker x = true
  · rw [if_pos hn]; exact Or.inl hn
  · rw [if_neg hn]
    rcases appTagInsert_spec nscAttrIns x with ⟨heq, hnb⟩ | ⟨pre, inner, rest, hs, hres⟩
    · rw [heq]; exact Or.inr hnb
    · rw [hres]
      left
      exact containsL_iff.mpr ((show nscMarker <:+: nscAttrIns by decide).trans
        ⟨pre ++ appLit ++ inner, '>' :: rest, by simp⟩)

/-- Bundled decidable overlap facts about the six permission lines. -/
theorem perm_conditions : ∀ p ∈ testPermissions,
    ('<' : Char) ∉ p ∧
    (¬ dbgFalse <:+: permLine p ∧ ¬ permLine p <:+: dbgFalse ∧
      noSufPre dbgFalse (permLine p) ∧ noPreSuf dbgFalse (permLine p)) ∧
    (¬ dbgMarker <:+: permLine p ∧ ¬ permLine p <:+: dbgMarker ∧
      noSufPre dbgMarker (permLine p) ∧ noPreSuf dbgMarker (permLine p)) ∧
    (¬ abFalse <:+: permLine p ∧ ¬ permLine p <:+: abFalse ∧
      noSufPre abFalse (permLine p) ∧ noPreSuf abFalse (permLine p)) ∧
    (¬ abMarker <:+: permLine p ∧ ¬ permLine p <:+: abMarker ∧
      noSufPre abMarker (permLine p) ∧ noPreSuf abMarker (permLine p)) ∧
    (¬ appLit <:+: permLine p ∧ ¬ permLine p <:+: appLit ∧
      noSufPre appLit (permLine p) ∧ noPreSuf appLit (permLine p)) := by
  decide

/-- Case analysis of one permission `forEach` iteration. -/
theorem addPermission_cases (s p : List Char) :
    (containsL p s = true ∧ addPermission s p = s) ∨
    (¬ manifestCloseLit <:+: s ∧ addPermission s p = s) ∨
    (∃ a b, s = a ++ (manifestCloseLit ++ b) ∧
      addPermission s p = a ++ permLine p ++ (manifestCloseLit ++ b) ∧
      containsL p (addPermission s p) = true) := by
  unfold addPermission
  by_cases hc : containsL p s = true
  · rw [if_pos hc]
    exact Or.inl ⟨hc, rfl⟩
  · rw [if_neg hc]
    cases hsp : splitFirst manifestCloseLit s with
    | none =>
      right; left
      refine ⟨splitFirst_none hsp, ?_⟩
      unfold replaceFirst
      rw [hsp]
    | some pr =>
      obtain ⟨a, b⟩ := pr
      right; right
      have hs := splitFirst_eq_some hsp
      have hres : replaceFirst manifestCloseLit (permLine p ++ manifestCloseLit) s
          = a ++ permLine p ++ (manifestCloseLit ++ b) := by
        unfold replaceFirst
        rw [hsp]
        simp
      refine ⟨a, b, by rw [hs]; simp, hres, ?_⟩
      rw [hres]
      apply containsL_iff.mpr
      have h1 : p <:+: permLine p :=
        ⟨"    <uses-permission android:name=\"".data, "\" />\n".data, rfl⟩
      exact h1.trans ⟨a, manifestCloseLit ++ b, by simp⟩

theorem invD_addPermission {x p : List Char} (hp : p ∈ testPermissions)
    (h : InvD x) : InvD (addPermission x p) := by
  obtain ⟨hchar, _, hbD, _, _, hbApp⟩ := perm_conditions p hp
  rcases addPermission_cases x p with ⟨_, heq⟩ | ⟨_, heq⟩ | ⟨a, b, hs, hres, _⟩
  · rw [heq]; exact h
  · rw [heq]; exact h
  · rw [hres]
    obtain ⟨_, hfD, _, _, _⟩ := perm_conditions p hp
    rcases h with ⟨hc, hnf⟩ | ⟨hc, hnb⟩
    · left
      refine ⟨?_, ?_⟩
      · apply containsL_iff.mpr
        have hinf : dbgMarker <:+: a ++ (manifestCloseLit ++ b) := by
          rw [← hs]; exact containsL_iff.mp hc
        rcases infix_append_fresh hinf rfl (by decide) with hx | hz
        · exact hx.trans ⟨[], permLine p ++ (manifestCloseLit ++ b), by simp⟩
        · exact hz.trans ⟨a ++ permLine p, [], by simp⟩
      · rw [hs] at hnf
        exact insert_noCreate hfD.1 hfD.2.1 hfD.2.2.1 hfD.2.2.2 hnf
    · right
      refine ⟨?_, ?_⟩
      · apply containsL_false_of_no_occurrence
        have hnm : ¬ dbgMarker <:+: a ++ (manifestCloseLit ++ b) := by
          rw [← hs]; exact containsL_eq_false_iff.mp hc
        exact insert_noCreate hbD.1 hbD.2.1 hbD.2.2.1 hbD.2.2.2 hnm
      · have hZ : ('>' : Char) ∈ manifestCloseLit ++ b :=
          List.mem_append_left _ (by decide)
        have hnb2 : ¬ BadMatch (a ++ (manifestCloseLit ++ b)) := by
          rw [← hs]; exact hnb
        exact insert_noBad_gt hZ hbApp.1 hbApp.2.1 hbApp.2.2.1 hbApp.2.2.2 hnb2

theorem invA_addPermission {x p : List Char} (hp : p ∈ testPermissions)
    (h : InvA x) : InvA (addPermission x p) := by
  obtain ⟨hchar, _, _, hfA, hbA, hbApp⟩ := perm_conditions p hp
  rcases addPermission_cases x p with ⟨_, heq⟩ | ⟨_, heq⟩ | ⟨a, b, hs, hres, _⟩
  · rw [heq]; exact h
  · rw [heq]; exact h
  · rw [hres]
    rcases h with ⟨hc, hnf⟩ | ⟨hc, hnb⟩
    · left
      refine ⟨?_, ?_⟩
      · apply containsL_iff.mpr
        have hinf : abMarker <:+: a ++ (manifestCloseLit ++ b) := by
          rw [← hs]; exact containsL_iff.mp hc
        rcases infix_append_fresh hinf rfl (by decide) with hx | hz
        · exact hx.trans ⟨[], permLine p ++ (manifestCloseLit ++ b), by simp⟩
        · exact hz.trans ⟨a ++ permLine p, [], by simp⟩
      · rw [hs] at hnf
        exact insert_noCreate hfA.1 hfA.2.1 hfA.2.2.1 hfA.2.2.2 hnf
    · right
      refine ⟨?_, ?_⟩
      · apply containsL_false_of_no_occurrence
        have hnm : ¬ abMarker <:+: a ++ (manifestCloseLit ++ b) := by
          rw [← hs]; exact containsL_eq_false_iff.mp hc
        exact insert_noCreate hbA.1 hbA.2.1 hbA.2.2.1 hbA.2.2.2 hnm
      · have hZ : ('>' : Char) ∈ manifestCloseLit ++ b :=
          List.mem_append_left _ (by decide)
        have hnb2 : ¬ BadMatch (a ++ (manifestCloseLit ++ b)) := by
          rw [← hs]; exact hnb
        exact insert_noBad_gt hZ hbApp.1 hbApp.2.1 hbApp.2.2.1 hbApp.2.2.2 hnb2

theorem invN_addPermission {x p : List Char} (hp : p ∈ testPermissions)
    (h : InvN x) : InvN (addPermission x p) := by
  obtain ⟨hchar, _, _, _, _, hbApp⟩ := perm_conditions p hp
  rcases addPermission_cases x p with ⟨_, heq⟩ | ⟨_, heq⟩ | ⟨a, b, hs, hres, _⟩
  · rw [heq]; exact h
  · rw [heq]; exact h
  · rw [hres]
    rcases h with hc | hnb
    · left
      apply containsL_iff.mpr
      have hinf : nscMarker <:+: a ++ (manifestCloseLit ++ b) := by
        rw [← hs]; exact containsL_iff.mp hc
      rcases infix_append_fresh hinf rfl (by decide) with hx | hz
      · exact hx.trans ⟨[], permLine p ++ (manifestCloseLit ++ b), by simp⟩
      · exact hz.trans ⟨a ++ permLine p, [], by simp⟩
    · right
      have hZ : ('>' : Char) ∈ manifestCloseLit ++ b :=
        List.mem_append_left _ (by decide)
      have hnb2 : ¬ BadMatch (a ++ (manifestCloseLit ++ b)) := by
        rw [← hs]; exact hnb
      exact insert_noBad_gt hZ hbApp.1 hbApp.2.1 hbApp.2.2.1 hbApp.2.2.2 hnb2

theorem foldl_addPermission_preserve {P : List Char → Prop} :
    ∀ (l : List (List Char)),
      (∀ s p, p ∈ l → P s → P (addPermission s p)) →
      ∀ s, P s → P (l.foldl addPermission s) := by
  intro l
  induction l with
  | nil => intro _ s h; exact h
  | cons q rest ih =>
    intro hstep s h
    rw [List.foldl_cons]
    exact ih (fun s2 p hp h2 => hstep s2 p (by simp [hp]) h2) _ (hstep s q (by simp) h)

theorem addPermission_preserves_contains {p s q : List Char}
    (hp : ('<' : Char) ∉ p) (h : containsL p s = true) :
    containsL p (addPermission s q) = true := by
  rcases addPermission_cases s q with ⟨_, heq⟩ | ⟨_, heq⟩ | ⟨a, b, hs, hres, _⟩
  · rw [heq]; exact h
  · rw [heq]; exact h
  · rw [hres]
    apply containsL_iff.mpr
    have hinf : p <:+: a ++ (manifestCloseLit ++ b) := by
      rw [← hs]; exact containsL_iff.mp h
    rcases infix_append_fresh hinf rfl hp with hx | hz
    · exact hx.trans ⟨[], permLine q ++ (manifestCloseLit ++ b), by simp⟩
    · exact hz.trans ⟨a ++ permLine q, [], by simp⟩

theorem foldl_addPermission_noClose (l : List (List Char)) (s : List Char)
    (h : ¬ manifestCloseLit <:+: s) : l.foldl addPermission s = s :=
  foldl_addPermission_id l s fun p _ => Or.inr h

/-- The permission fold establishes the permission invariant. -/
theorem invP_foldl :
    ∀ (l : List (List Char)), (∀ p ∈ l, ('<' : Char) ∉ p) →
      ∀ s, ∀ p ∈ l,
        containsL p (l.foldl addPermission s) = true ∨
        ¬ manifestCloseLit <:+: (l.foldl addPermission s) := by
  intro l
  induction l with
  | nil => intro _ s p hp; simp at hp
  | cons q rest ih =>
    intro hchars s p hp
    rw [List.foldl_cons]
    rcases List.mem_cons.mp hp with rfl | hpr
    · rcases addPermission_cases s p with ⟨hcq, heq⟩ | ⟨hnml, heq⟩ | ⟨a, b, _, _, hcont⟩
      · rw [heq]
        left
        exact foldl_addPermission_preserve (P := fun t => containsL p t = true) rest
          (fun s2 r _ h2 => addPermission_preserves_contains (hchars p (by simp)) h2)
          s hcq
      · rw [heq, foldl_addPermission_noClose rest s hnml]
        exact Or.inr hnml
      · left
        exact foldl_addPermission_preserve (P := fun t => containsL p t = true) rest
          (fun s2 r _ h2 => addPermission_preserves_contains (hchars p (by simp)) h2)
          _ hcont
    · exact ih (fun r hr => hchars r (by simp [hr])) (addPermission s q) p hpr

/-- After one full pass all four block invariants hold. -/
theorem invariants_after_enhance (m : List Char) :
    InvD (enhanceManifestForDevMode m) ∧ InvA (enhanceManifestForDevMode m) ∧
    InvN (enhanceManifestForDevMode m) ∧ InvP (enhanceManifestForDevMode m) := by
  have hD := invD_stepNetworkSecurity (invD_stepAllowBackup (invD_stepDebuggable m))
  have hA := invA_stepNetworkSecurity (invA_stepAllowBackup (stepDebuggable m))
  have hN := invN_stepNetworkSecurity (stepAllowBackup (stepDebuggable m))
  unfold enhanceManifestForDevMode
  refine ⟨?_, ?_, ?_, ?_⟩
  · exact foldl_addPermission_preserve (P := InvD) testPermissions
      (fun s p hp h => invD_addPermission hp h) _ hD
  · exact foldl_addPermission_preserve (P := InvA) testPermissions
      (fun s p hp h => invA_addPermission hp h) _ hA
  · exact foldl_addPermission_preserve (P := InvN) testPermissions
      (fun s p hp h => invN_addPermission hp h) _ hN
  · exact invP_foldl testPermissions (fun p hp => (perm_conditions p hp).1) _

/-- C10: the manifest dev-mode mutation is idempotent — applying
`enhanceManifestForDevMode` to its own output changes nothing: the debuggable,
allowBackup and networkSecurityConfig insertions and the test-permission
appends all detect their prior application and make no second change. -/
theorem c10_enhance_manifest_idempotent :
    ∀ m : List Char,
      enhanceManifestForDevMode (enhanceManifestForDevMode m)
        = enhanceManifestForDevMode m := by
  intro m
  obtain ⟨hD, hA, hN, hP⟩ := invariants_after_enhance m
  exact enhance_id_of_invariants hD hA hN hP

end ApkCheck
